import Mathlib

/-!
Verification of the HostContext schema-validation and test-generation engine
of the mcp-app-bench shell (static/shell code of the repository).

The source is dynamically typed JavaScript operating on JSON-shaped data.
The embedding below models JavaScript runtime values by the inductive type
`JsonValue` (with an explicit `vUndef` for the JavaScript value `undefined`),
and models each source function as a Lean function over that type.

Modelling conventions, recorded once here:
  * Object property iteration and membership (`key in obj`, `for key in obj`,
    `hasOwnProperty`) are modelled over the own key/value pairs stored in a
    `vObj`.  The prototype chain of JavaScript objects is not modelled: the
    data validated by this engine arrives as parsed JSON, whose own keys are
    the only ones the engine is meant to inspect.  JavaScript iterates
    integer-like keys first; the model iterates in insertion order, which
    only affects result ordering for objects with numeric keys.
  * `key in x` for a primitive (non-object, non-null) `x` throws a
    TypeError in JavaScript; the lookup helper therefore returns
    `Except String _`, with `.error "TypeError"` for that case.
  * Pushing onto a shared result array is modelled by returning the pushed
    elements of each call and appending them in push order.
-/

inductive JsonValue : Type where
  | vUndef
  | vNull
  | vBool (b : Bool)
  | vNum (n : Int)
  | vStr (s : String)
  | vArr (xs : List JsonValue)
  | vObj (fields : List (String × JsonValue))

open JsonValue

/-- Test for `x === undefined || x === null` (the validator treats both as a
missing value). -/
def isMissingValue : JsonValue → Bool
  | vUndef => true
  | vNull => true
  | _ => false

/-- The JavaScript `typeof` operator on the modelled values.  Note that
`typeof null`, `typeof anArray` and `typeof anObject` are all `"object"`. -/
def jsTypeof : JsonValue → String
  | vUndef => "undefined"
  | vNull => "object"
  | vBool _ => "boolean"
  | vNum _ => "number"
  | vStr _ => "string"
  | vArr _ => "object"
  | vObj _ => "object"

/-- `Array.isArray`. -/
def isArray : JsonValue → Bool
  | vArr _ => true
  | _ => false

/-- `typeof v === "object" && v !== null && !Array.isArray(v)`: the guard the
source uses before recursing into a nested structure. -/
def isObjNonArray : JsonValue → Bool
  | vObj _ => true
  | _ => false

/-- The own key/value pairs of an object value (empty for non-objects; callers
use it only under an `isObjNonArray` guard). -/
def objFields : JsonValue → List (String × JsonValue)
  | vObj fields => fields
  | _ => []

/-- JavaScript truthiness of the modelled values. -/
def jsTruthy : JsonValue → Bool
  | vUndef => false
  | vNull => false
  | vBool b => b
  | vNum n => n ≠ 0
  | vStr s => s ≠ ""
  | vArr _ => true
  | vObj _ => true

/-- First binding of a key in an object's field list (JavaScript objects have
unique keys, so this is plain property lookup). -/
def lookupField (fields : List (String × JsonValue)) (k : String) : Option JsonValue :=
  match fields with
  | [] => none
  | (key, v) :: rest => if key = k then some v else lookupField rest k

/-- Property access `v[k]`: `undefined` when the key is absent or the value is
not an object.  (Used only for the fixed key `"hostContext"`, which no
primitive prototype provides.) -/
def getProp (v : JsonValue) (k : String) : JsonValue :=
  match v with
  | vObj fields => (lookupField fields k).getD vUndef
  | _ => vUndef

/-- The keys of an object level, in iteration order. -/
def dataKeys (fields : List (String × JsonValue)) : List String :=
  fields.map Prod.fst

mutual
/-- String conversion applied by JavaScript string concatenation, as used when
building result messages.  Arrays stringify as their elements joined by
commas with `null`/`undefined` elements becoming empty strings; plain
objects stringify as `"[object Object]"`. -/
def jsToString : JsonValue → String
  | vUndef => "undefined"
  | vNull => "null"
  | vBool b => if b then "true" else "false"
  | vNum n => toString n
  | vStr s => s
  | vArr xs => jsToStringArr xs
  | vObj _ => "[object Object]"
termination_by v => (sizeOf v, 0)
decreasing_by all_goals (simp_wf; try omega)

def jsToStringArr : List JsonValue → String
  | [] => ""
  | [v] => jsToStringItem v
  | v :: rest => jsToStringItem v ++ "," ++ jsToStringArr rest
termination_by xs => (sizeOf xs, 2)
decreasing_by all_goals (simp_wf; try omega)

def jsToStringItem : JsonValue → String
  | vNull => ""
  | vUndef => ""
  | v => jsToString v
termination_by v => (sizeOf v, 1)
decreasing_by all_goals (simp_wf; try omega)
end

-- ===========================================================================
-- Schema definition (hostContextSchema)
-- ===========================================================================

/-- A schema `type` field: a single type name or a union of alternatives
(the source stores either a string or an array of strings). -/
inductive TypeSpec : Type where
  | single (t : String)
  | union (ts : List String)

/-- One `unionGroups` constraint (declared in the schema data; never enforced
by the validator walk). -/
structure UnionGroup where
  oneOf : List String
  label : String

/-- One schema node: `type`, `optional` (absent in the source literal means
`false`), `enum`, `unionGroups` (absent means none), `children` (presence
makes the node interior). -/
inductive SchemaNode : Type where
  | mk (type : TypeSpec) (optional : Bool) (enum : Option (List String))
      (unionGroups : List UnionGroup) (children : Option (List (String × SchemaNode)))

/-- One level of the schema: field name to node, in declaration order. -/
abbrev SchemaMap := List (String × SchemaNode)

def SchemaNode.typeOf : SchemaNode → TypeSpec
  | .mk t _ _ _ _ => t

def SchemaNode.optionalFlag : SchemaNode → Bool
  | .mk _ o _ _ _ => o

def SchemaNode.enumOf : SchemaNode → Option (List String)
  | .mk _ _ e _ _ => e

def SchemaNode.childrenOf : SchemaNode → Option SchemaMap
  | .mk _ _ _ _ c => c

def schemaKeys (schema : SchemaMap) : List String :=
  schema.map Prod.fst

def lookupEntry (schema : SchemaMap) (k : String) : Option SchemaNode :=
  match schema with
  | [] => none
  | (key, e) :: rest => if key = k then some e else lookupEntry rest k

/-- Style variable keys from the MCP Apps spec (source list, order kept). -/
def styleVariableKeys : List String :=
  [ "--color-background-primary", "--color-background-secondary",
    "--color-background-tertiary", "--color-background-inverse",
    "--color-background-ghost", "--color-background-info",
    "--color-background-danger", "--color-background-success",
    "--color-background-warning", "--color-background-disabled",
    "--color-text-primary", "--color-text-secondary", "--color-text-tertiary",
    "--color-text-inverse", "--color-text-info", "--color-text-danger",
    "--color-text-success", "--color-text-warning", "--color-text-disabled",
    "--color-text-ghost",
    "--color-border-primary", "--color-border-secondary",
    "--color-border-tertiary", "--color-border-inverse", "--color-border-ghost",
    "--color-border-info", "--color-border-danger", "--color-border-success",
    "--color-border-warning", "--color-border-disabled",
    "--color-ring-primary", "--color-ring-secondary", "--color-ring-inverse",
    "--color-ring-info", "--color-ring-danger", "--color-ring-success",
    "--color-ring-warning",
    "--font-sans", "--font-mono",
    "--font-weight-normal", "--font-weight-medium", "--font-weight-semibold",
    "--font-weight-bold",
    "--font-text-xs-size", "--font-text-sm-size", "--font-text-md-size",
    "--font-text-lg-size",
    "--font-heading-xs-size", "--font-heading-sm-size", "--font-heading-md-size",
    "--font-heading-lg-size", "--font-heading-xl-size", "--font-heading-2xl-size",
    "--font-heading-3xl-size",
    "--font-text-xs-line-height", "--font-text-sm-line-height",
    "--font-text-md-line-height", "--font-text-lg-line-height",
    "--font-heading-xs-line-height", "--font-heading-sm-line-height",
    "--font-heading-md-line-height", "--font-heading-lg-line-height",
    "--font-heading-xl-line-height", "--font-heading-2xl-line-height",
    "--font-heading-3xl-line-height",
    "--border-radius-xs", "--border-radius-sm", "--border-radius-md",
    "--border-radius-lg", "--border-radius-xl", "--border-radius-full",
    "--border-width-regular",
    "--shadow-hairline", "--shadow-sm", "--shadow-md", "--shadow-lg" ]

/-- `styleVariablesSchema`: each style variable key maps to an optional string
leaf (built dynamically in the source with `forEach`). -/
def styleVariablesSchema : SchemaMap :=
  styleVariableKeys.map (fun key => (key, SchemaNode.mk (.single "string") true none [] none))

/-- The child map of the `hostContext` root key of the schema literal
(MCP Apps spec SEP-1865, version 2026-01-26). -/
def hostContextChildren : SchemaMap :=
  [ ("toolInfo", .mk (.single "object") true none []
          (some
            [ ("id", .mk (.union ["string", "number"]) true none [] none),
              ("tool", .mk (.single "object") false none []
                (some
                  [ ("name", .mk (.single "string") false none [] none),
                    ("description", .mk (.single "string") true none [] none),
                    ("inputSchema", .mk (.single "object") true none [] none)]))])),
        ("theme", .mk (.single "string") true (some ["light", "dark"]) [] none),
        ("styles", .mk (.single "object") true none []
          (some
            [ ("variables", .mk (.single "object") true none []
                (some styleVariablesSchema)),
              ("css", .mk (.single "object") true none []
                (some [("fonts", .mk (.single "string") true none [] none)]))])),
        ("displayMode", .mk (.single "string") true
          (some ["inline", "fullscreen", "pip"]) [] none),
        ("availableDisplayModes", .mk (.single "array") true none [] none),
        ("containerDimensions", .mk (.single "object") true none
          [⟨["height", "maxHeight"], "height or maxHeight"⟩,
           ⟨["width", "maxWidth"], "width or maxWidth"⟩]
          (some
            [ ("height", .mk (.single "number") true none [] none),
              ("maxHeight", .mk (.single "number") true none [] none),
              ("width", .mk (.single "number") true none [] none),
              ("maxWidth", .mk (.single "number") true none [] none)])),
        ("locale", .mk (.single "string") true none [] none),
        ("timeZone", .mk (.single "string") true none [] none),
        ("userAgent", .mk (.single "string") true none [] none),
        ("platform", .mk (.single "string") true
          (some ["web", "desktop", "mobile"]) [] none),
        ("deviceCapabilities", .mk (.single "object") true none []
          (some
            [ ("touch", .mk (.single "boolean") true none [] none),
              ("hover", .mk (.single "boolean") true none [] none)])),
        ("safeAreaInsets", .mk (.single "object") true none []
          (some
            [ ("top", .mk (.single "number") false none [] none),
              ("right", .mk (.single "number") false none [] none),
              ("bottom", .mk (.single "number") false none [] none),
              ("left", .mk (.single "number") false none [] none)]))]

/-- The HostContext schema literal of the source: one root key `hostContext`
with the children above. -/
def hostContextSchema : SchemaMap :=
  [("hostContext", .mk (.single "object") false none [] (some hostContextChildren))]

-- ===========================================================================
-- Schema Validator (validateHostContext)
-- ===========================================================================

/-- The full-path builder `path ? path + "." + key : key` used by the
validator, generator and finder. -/
def joinPath (p k : String) : String :=
  if p ≠ "" then p ++ "." ++ k else k

/-- The result object of `validateHostContext`: three path lists, in source
field order. -/
structure ValidationResult where
  missing : List String
  unexpected : List String
  valid : List String

/-- Componentwise append: combines the pushes of two consecutive program
fragments into one result. -/
def ValidationResult.app (a b : ValidationResult) : ValidationResult :=
  ⟨a.missing ++ b.missing, a.unexpected ++ b.unexpected, a.valid ++ b.valid⟩

def emptyResult : ValidationResult := ⟨[], [], []⟩

/-- `markAllAsUnexpected(obj, path)` of the source: pushes `path + "." + key`
for every key of the object (note: unconditionally dotted, no emptiness test
on `path` here) and recurses into non-array object values.  Returns the
pushed paths in push order. -/
def markAllAsUnexpected (fields : List (String × JsonValue)) (path : String) : List String :=
  match fields with
  | [] => []
  | (key, v) :: rest =>
    ((path ++ "." ++ key) ::
      (if isObjNonArray v then markAllAsUnexpected (objFields v) (path ++ "." ++ key)
       else [])) ++ markAllAsUnexpected rest path
termination_by sizeOf fields
decreasing_by
  all_goals simp_wf
  all_goals try omega
  all_goals (cases v <;> simp [objFields] <;> try omega)

/-- The second loop of the inner `validate`: every data key at this level that
is not a schema key is pushed as unexpected, and a non-array object value
has its whole subtree marked via `markAllAsUnexpected`. -/
def unexpectedWalk (fields : List (String × JsonValue)) (schema : SchemaMap)
    (path : String) : List String :=
  match fields with
  | [] => []
  | (key, v) :: rest =>
    (if !((schemaKeys schema).contains key) then
      joinPath path key ::
        (if isObjNonArray v then markAllAsUnexpected (objFields v) (joinPath path key)
         else [])
     else []) ++ unexpectedWalk rest schema path
termination_by sizeOf fields
decreasing_by
  all_goals simp_wf
  all_goals try omega
  all_goals (cases v <;> simp [objFields] <;> try omega)

mutual
/-- The inner `validate(obj, schema, path)` of `validateHostContext`, returning
its pushes.  The source guard `if (!obj || typeof obj !== "object") return`
stops everything but objects; an array would pass the source guard but
`validate` is never applied to one (the root call receives an object literal
and the recursion site excludes arrays), so the model stops there too. -/
def validateGo (obj : JsonValue) (schema : SchemaMap) (path : String) : ValidationResult :=
  match obj with
  | vObj fields =>
    ValidationResult.app (phase1 fields schema path)
      ⟨[], unexpectedWalk fields schema path, []⟩
  | _ => emptyResult
termination_by (sizeOf schema, 1)
decreasing_by all_goals (simp_wf; try omega)

/-- The first loop of the inner `validate`: for each schema key, push the full
path as missing (key absent, or value `undefined`/`null`) or as valid; on a
valid key with `children` and a non-array object value, recurse. -/
def phase1 (fields : List (String × JsonValue)) (schema : SchemaMap) (path : String) :
    ValidationResult :=
  match schema with
  | [] => emptyResult
  | (key, SchemaNode.mk _ty _opt _en _ug ch) :: rest =>
    ValidationResult.app
      (match lookupField fields key with
       | none => (⟨[joinPath path key], [], []⟩ : ValidationResult)
       | some v =>
         if isMissingValue v then ⟨[joinPath path key], [], []⟩
         else
           ValidationResult.app ⟨[], [], [joinPath path key]⟩
             (match ch with
              | some cs =>
                if jsTypeof v == "object" && !(isArray v) then
                  validateGo v cs (joinPath path key)
                else emptyResult
              | none => emptyResult))
      (phase1 fields rest path)
termination_by (sizeOf schema, 0)
decreasing_by all_goals (simp_wf; try omega)
end

/-- `validateHostContext(data)`: validates `{hostContext: data.hostContext}`
against `hostContextSchema` when `data` and `data.hostContext` are truthy;
otherwise returns the empty result. -/
def validateHostContext (data : JsonValue) : ValidationResult :=
  if jsTruthy data && jsTruthy (getProp data "hostContext") then
    validateGo (vObj [("hostContext", getProp data "hostContext")]) hostContextSchema ""
  else emptyResult

/-- `getPathValidationStatus(path, validationResult)`: exact `missing` match
first, then exact `unexpected` match, then the prefix scan
`path.indexOf(entry + ".") === 0` (the string `entry + "."` starts the path,
stated over the character lists of the strings), else `"valid"`. -/
def getPathValidationStatus (path : String) (validationResult : ValidationResult) : String :=
  if validationResult.missing.contains path then "missing"
  else if validationResult.unexpected.contains path then "unexpected"
  else if validationResult.unexpected.any
      (fun u => (u ++ ".").data.isPrefixOf path.data) then "unexpected"
  else "valid"

-- ===========================================================================
-- Test Case Generator (generateTestCases)
-- ===========================================================================

/-- One generated test case: the source object
`{path, expectedType, enumValues, optional, parentPath}` (with `null`
modelled by `none`). -/
structure TestCaseDescriptor where
  path : String
  expectedType : TypeSpec
  enumValues : Option (List String)
  optional : Bool
  parentPath : Option String

/-- `generateTestCases(schema, prefix, parentOptional)`: leaf-only descriptor
list in depth-first schema order; interior nodes recurse with
`parentOptional || entry.optional` and emit nothing themselves. -/
def generateTestCases (schema : SchemaMap) (pre : String) (parentOptional : Bool) :
    List TestCaseDescriptor :=
  match schema with
  | [] => []
  | (key, SchemaNode.mk ty opt en _ug ch) :: rest =>
    (match ch with
     | some cs => generateTestCases cs (joinPath pre key) (parentOptional || opt)
     | none =>
       [⟨joinPath pre key, ty, en, parentOptional || opt,
         if pre ≠ "" then some pre else none⟩]) ++
    generateTestCases rest pre parentOptional
termination_by sizeOf schema
decreasing_by all_goals (simp_wf; try omega)

/-- Stated from the spec for comparison with `generateTestCases`: the
generator threads down the list of ALL ancestor optional flags, and a leaf's
`optional` field is the boolean OR of those flags together with its own
declared flag; interior nodes emit no descriptor. -/
def specGenerateTestCases (schema : SchemaMap) (pre : String) (ancestors : List Bool) :
    List TestCaseDescriptor :=
  match schema with
  | [] => []
  | (key, SchemaNode.mk ty opt en _ug ch) :: rest =>
    (match ch with
     | some cs => specGenerateTestCases cs (joinPath pre key) (ancestors ++ [opt])
     | none =>
       [⟨joinPath pre key, ty, en, (ancestors ++ [opt]).any id,
         if pre ≠ "" then some pre else none⟩]) ++
    specGenerateTestCases rest pre ancestors
termination_by sizeOf schema
decreasing_by all_goals (simp_wf; try omega)

/-- Number of leaf nodes (no `children`) of a schema tree. -/
def leafCount (schema : SchemaMap) : Nat :=
  match schema with
  | [] => 0
  | (_, SchemaNode.mk _ _ _ _ ch) :: rest =>
    (match ch with
     | some cs => leafCount cs
     | none => 1) + leafCount rest
termination_by sizeOf schema
decreasing_by all_goals (simp_wf; try omega)

-- ===========================================================================
-- Path utilities and Test Case Runner (getValueByPath, runTestCase)
-- ===========================================================================

/-- `path.split(".")` of JavaScript: split on every dot character (so
`""` gives `[""]`, `"a."` gives `["a", ""]`). -/
def splitDots (s : String) : List String :=
  splitDotsGo s.data []
where
  splitDotsGo : List Char → List Char → List String
    | [], acc => [String.mk acc.reverse]
    | c :: cs, acc =>
      if c = '.' then String.mk acc.reverse :: splitDotsGo cs []
      else splitDotsGo cs (c :: acc)

/-- The `{found, value}` object returned by `getValueByPath`. -/
structure LookupResult where
  found : Bool
  value : JsonValue

/-- The loop of `getValueByPath`: each step first checks the current value for
`null`/`undefined`, then evaluates `parts[i] in current`.  For an object
that is own-key membership; for an array, index keys and `"length"`; for a
primitive the JavaScript `in` operator throws a TypeError. -/
def getValueByPathGo : JsonValue → List String → Except String LookupResult
  | current, [] => .ok ⟨true, current⟩
  | current, part :: rest =>
    match current with
    | vNull => .ok ⟨false, vUndef⟩
    | vUndef => .ok ⟨false, vUndef⟩
    | vObj fields =>
      if (dataKeys fields).contains part then
        getValueByPathGo ((lookupField fields part).getD vUndef) rest
      else .ok ⟨false, vUndef⟩
    | vArr xs =>
      if part == "length" then getValueByPathGo (vNum xs.length) rest
      else
        match (List.range xs.length).find? (fun i => toString i == part) with
        | some i => getValueByPathGo (xs.getD i vUndef) rest
        | none => .ok ⟨false, vUndef⟩
    | _ => .error "TypeError"

/-- `getValueByPath(obj, path)`: dot-path lookup. -/
def getValueByPath (obj : JsonValue) (path : String) : Except String LookupResult :=
  getValueByPathGo obj (splitDots path)

/-- The result object of `runTestCase`. -/
structure TestCaseResult where
  status : String
  message : String
  actualValue : JsonValue
  actualType : String

/-- `value === null ? "null" : Array.isArray(value) ? "array" : typeof value`. -/
def actualTypeOf (value : JsonValue) : String :=
  match value with
  | vNull => "null"
  | _ => if isArray value then "array" else jsTypeof value

/-- `Array.isArray(expectedType) ? expectedType : [expectedType]`. -/
def expectedTypesOf : TypeSpec → List String
  | .union ts => ts
  | .single t => [t]

/-- `enumValues.indexOf(value) !== -1`: strict equality of the looked-up value
against the string enum entries (a non-string value equals no entry). -/
def enumHas (es : List String) (value : JsonValue) : Bool :=
  match value with
  | vStr s => es.contains s
  | _ => false

/-- `runTestCase(testCase, hostData)`: missing / invalid / warn / provided
classification of one descriptor against live data. -/
def runTestCase (testCase : TestCaseDescriptor) (hostData : JsonValue) :
    Except String TestCaseResult :=
  match getValueByPath hostData testCase.path with
  | .error e => .error e
  | .ok result =>
    if !result.found then
      .ok ⟨"missing", "Not provided", vUndef, "undefined"⟩
    else
      if !((expectedTypesOf testCase.expectedType).contains (actualTypeOf result.value)) then
        .ok ⟨"invalid",
          "Expected " ++ String.intercalate " | " (expectedTypesOf testCase.expectedType) ++
            ", got " ++ actualTypeOf result.value,
          result.value, actualTypeOf result.value⟩
      else
        match testCase.enumValues with
        | some es =>
          if !(enumHas es result.value) then
            .ok ⟨"warn",
              "Value \"" ++ jsToString result.value ++ "\" not in spec: [" ++
                String.intercalate ", " es ++ "]",
              result.value, actualTypeOf result.value⟩
          else .ok ⟨"provided", "OK", result.value, actualTypeOf result.value⟩
        | none => .ok ⟨"provided", "OK", result.value, actualTypeOf result.value⟩

-- ===========================================================================
-- Grading (getGrade)
-- ===========================================================================

/-- `getGrade(percentage)`: the returned object literal is modelled as its
key/value pairs, keeping the source key names (`letter` and `color`). -/
def getGrade (percentage : ℚ) : List (String × String) :=
  if percentage ≥ 90 then [("letter", "A"), ("color", "pass")]
  else if percentage ≥ 80 then [("letter", "B"), ("color", "pass")]
  else if percentage ≥ 70 then [("letter", "C"), ("color", "warn")]
  else if percentage ≥ 60 then [("letter", "D"), ("color", "warn")]
  else [("letter", "F"), ("color", "fail")]

-- ===========================================================================
-- Unexpected-Property Finder (findUnexpectedProperties)
-- ===========================================================================

/-- One finding of the finder: `{path, value, type}`. -/
structure UnexpectedProperty where
  path : String
  value : JsonValue
  type : String

mutual
/-- `findUnexpectedProperties(hostData, schema, prefix)`: guard
`!hostData || typeof hostData !== "object" || Array.isArray(hostData)`
returns no findings; otherwise walk the keys. -/
def findUnexpectedProperties (hostData : JsonValue) (schema : SchemaMap) (pre : String) :
    List UnexpectedProperty :=
  match hostData with
  | vObj fields => findUnexpectedAux fields schema pre
  | _ => []
termination_by (sizeOf hostData, 1)
decreasing_by all_goals (simp_wf; try omega)

/-- The key loop of `findUnexpectedProperties`: a key absent from the schema is
recorded (value and runtime type) and, when its value is a non-array object,
its subtree is walked against the empty schema `{}` (everything beneath is
recorded); a schema key with `children` and a non-array object-typed value
recurses with the child schema. -/
def findUnexpectedAux (fields : List (String × JsonValue)) (schema : SchemaMap)
    (pre : String) : List UnexpectedProperty :=
  match fields with
  | [] => []
  | (key, v) :: rest =>
    (if !((schemaKeys schema).contains key) then
      ⟨joinPath pre key, v, actualTypeOf v⟩ ::
        (if isObjNonArray v then findUnexpectedProperties v [] (joinPath pre key)
         else [])
     else
       match lookupEntry schema key with
       | some e =>
         match e.childrenOf with
         | some cs =>
           if jsTypeof v == "object" && !(isArray v) then
             findUnexpectedProperties v cs (joinPath pre key)
           else []
         | none => []
       | none => []) ++
    findUnexpectedAux rest schema pre
termination_by (sizeOf fields, 0)
decreasing_by all_goals (simp_wf; try omega)
end

/-- Stated from the spec for comparison with the finder: under an unknown key,
every key beneath is unconditionally recorded (value and runtime type), with
the subtree-recursion policy applied at each non-array object value. -/
def specDeepUnexpected (fields : List (String × JsonValue)) (base : String) :
    List UnexpectedProperty :=
  match fields with
  | [] => []
  | (key, v) :: rest =>
    (⟨joinPath base key, v, actualTypeOf v⟩ ::
      (if isObjNonArray v then specDeepUnexpected (objFields v) (joinPath base key)
       else [])) ++ specDeepUnexpected rest base
termination_by sizeOf fields
decreasing_by
  all_goals simp_wf
  all_goals try omega
  all_goals (cases v <;> simp [objFields] <;> try omega)

-- ===========================================================================
-- Well-formedness of data and schema, and path-shape predicates
-- ===========================================================================

/-- A key with no dot character: dot-paths built from such keys decompose
uniquely. -/
def dotFree (k : String) : Bool := !(k.data.contains '.')

mutual
/-- Well-formed data object: at every object level the keys are distinct (as
in every real JavaScript object) and contain no dot character. -/
def wfData : JsonValue → Bool
  | vObj fields =>
    decide (dataKeys fields).Nodup && (dataKeys fields).all dotFree && wfFields fields
  | _ => true
termination_by v => (sizeOf v, 1)
decreasing_by all_goals (simp_wf; try omega)

def wfFields : List (String × JsonValue) → Bool
  | [] => true
  | (_, v) :: rest => wfData v && wfFields rest
termination_by fs => (sizeOf fs, 0)
decreasing_by all_goals (simp_wf; try omega)
end

mutual
/-- Well-formed schema: at every level the keys are distinct and dot-free. -/
def wfSchemaMap (m : SchemaMap) : Bool :=
  decide (schemaKeys m).Nodup && (schemaKeys m).all dotFree && wfSchemaEntries m
termination_by (sizeOf m, 1)
decreasing_by all_goals (simp_wf; try omega)

def wfSchemaEntries : SchemaMap → Bool
  | [] => true
  | (_, SchemaNode.mk _ _ _ _ ch) :: rest =>
    (match ch with
     | some cs => wfSchemaMap cs
     | none => true) && wfSchemaEntries rest
termination_by m => (sizeOf m, 0)
decreasing_by all_goals (simp_wf; try omega)
end

/-- The string every full path at base `p` starts with: `""` at the root,
`p ++ "."` below it.  `joinPath p k = pathPre p ++ k`. -/
def pathPre (p : String) : String := if p = "" then "" else p ++ "."

/-- `q` lies in the branch of key `k` at base `p`: it is the full path of `k`
itself or a dotted extension of it. -/
def UnderKey (p k q : String) : Prop :=
  ∃ r : String, (r = "" ∨ ∃ t, r = "." ++ t) ∧ q = pathPre p ++ k ++ r

/-- No element in common. -/
def ListDisj (a b : List String) : Prop := ∀ x, x ∈ a → x ∈ b → False

/-- Every path of `qs` lies in the branch of some dot-free key of `K` at
base `p`. -/
def CoveredBy (p : String) (K : List String) (qs : List String) : Prop :=
  ∀ q ∈ qs, ∃ k, k ∈ K ∧ dotFree k = true ∧ UnderKey p k q

def dataKeysOf : JsonValue → List String
  | vObj fields => dataKeys fields
  | _ => []

/-- The invariant of the validator walk at base `p` over key set `K`: the
three lists are duplicate-free, pairwise disjoint, and covered by `K`. -/
def VRinv (p : String) (K : List String) (n : ValidationResult) : Prop :=
  n.missing.Nodup ∧ n.valid.Nodup ∧ n.unexpected.Nodup ∧
  ListDisj n.missing n.valid ∧ ListDisj n.missing n.unexpected ∧
  ListDisj n.valid n.unexpected ∧
  CoveredBy p K (n.missing ++ n.valid ++ n.unexpected)

/-- The invariant established for the first validator loop at one level. -/
def Phase1Inv (schema : SchemaMap) : Prop :=
  ∀ fields p, p ≠ "" → wfData (vObj fields) = true →
    VRinv p (schemaKeys schema) (phase1 fields schema p)

/-- The invariant established for a full inner `validate` call. -/
def GoInv (schema : SchemaMap) : Prop :=
  ∀ obj p, p ≠ "" → wfData obj = true →
    VRinv p (schemaKeys schema ++ dataKeysOf obj) (validateGo obj schema p)

-- ===========================================================================
-- Theorems: basic component lemmas
-- ===========================================================================

@[simp] theorem ValidationResult.app_missing (a b : ValidationResult) :
    (a.app b).missing = a.missing ++ b.missing := rfl

@[simp] theorem ValidationResult.app_unexpected (a b : ValidationResult) :
    (a.app b).unexpected = a.unexpected ++ b.unexpected := rfl

@[simp] theorem ValidationResult.app_valid (a b : ValidationResult) :
    (a.app b).valid = a.valid ++ b.valid := rfl
theorem joinPath_eq (p k : String) : joinPath p k = pathPre p ++ k := by
  unfold joinPath pathPre
  by_cases h : p = "" <;> simp [h]

theorem pathPre_data (p : String) (hp : p ≠ "") : (pathPre p).data = p.data ++ ['.'] := by
  unfold pathPre
  simp [hp, String.data_append]

theorem dotFree_not_mem {k : String} (h : dotFree k = true) : '.' ∉ k.data := by
  unfold dotFree at h
  simpa using h

theorem underKey_data {p k q : String} (h : UnderKey p k q) :
    ∃ r : List Char, (r = [] ∨ ∃ l, r = '.' :: l) ∧
      q.data = (pathPre p).data ++ (k.data ++ r) := by
  obtain ⟨r, hr, he⟩ := h
  refine ⟨r.data, ?_, ?_⟩
  · rcases hr with h0 | ⟨t, ht⟩
    · left; rw [h0]
    · right; exact ⟨t.data, by rw [ht]; simp [String.data_append]⟩
  · rw [he]
    simp [String.data_append]

theorem underKey_of_data {p k q : String}
    (h : ∃ r : List Char, (r = [] ∨ ∃ l, r = '.' :: l) ∧
      q.data = (pathPre p).data ++ (k.data ++ r)) : UnderKey p k q := by
  obtain ⟨r, hr, he⟩ := h
  refine ⟨String.mk r, ?_, ?_⟩
  · rcases hr with h0 | ⟨l, hl⟩
    · left; rw [h0]
    · right
      exact ⟨String.mk l, by apply String.ext; rw [hl]; simp [String.data_append]⟩
  · apply String.ext
    rw [he]
    simp [String.data_append]

theorem underKey_self (p k : String) : UnderKey p k (joinPath p k) := by
  refine ⟨"", Or.inl rfl, ?_⟩
  rw [joinPath_eq]
  apply String.ext
  simp [String.data_append]

theorem underKey_dotext (p k t : String) : UnderKey p k (joinPath p k ++ "." ++ t) := by
  refine ⟨"." ++ t, Or.inr ⟨t, rfl⟩, ?_⟩
  rw [joinPath_eq]
  apply String.ext
  simp [String.data_append]

theorem joinPath_ne_empty {p : String} (k : String) (hp : p ≠ "") : joinPath p k ≠ "" := by
  rw [joinPath_eq]
  intro h
  have hd := congrArg String.data h
  rw [String.data_append, pathPre_data p hp] at hd
  have := congrArg List.length hd
  simp at this

theorem underKey_ne {p k q : String} (hp : p ≠ "") (h : UnderKey p k q) : q ≠ p := by
  obtain ⟨r, _hr, he⟩ := underKey_data h
  rw [pathPre_data p hp] at he
  intro hqp
  rw [hqp] at he
  have := congrArg List.length he
  simp at this

theorem underKey_extend {p k k' q : String} (hp : p ≠ "")
    (h : UnderKey (joinPath p k) k' q) : UnderKey p k q := by
  obtain ⟨r, _hr, he⟩ := underKey_data h
  apply underKey_of_data
  refine ⟨'.' :: (k'.data ++ r), Or.inr ⟨_, rfl⟩, ?_⟩
  rw [he, pathPre_data _ (joinPath_ne_empty k hp), joinPath_eq, String.data_append,
    pathPre_data p hp]
  simp

theorem key_prefix_absurd {k₁ k₂ : String} {r₁ r₂ : List Char} (hdf : dotFree k₂ = true)
    (hr₁ : r₁ = [] ∨ ∃ l, r₁ = '.' :: l) (hne : k₁ ≠ k₂)
    (h : ∃ a, k₂.data = k₁.data ++ a ∧ r₁ = a ++ r₂) : False := by
  obtain ⟨a, ha, har⟩ := h
  match a with
  | [] =>
    apply hne
    apply String.ext
    simpa using ha.symm
  | c :: l =>
    rcases hr₁ with h0 | ⟨l₁, hl₁⟩
    · rw [h0] at har
      exact absurd har.symm (by simp)
    · rw [hl₁] at har
      have hc : c = '.' := by
        have := congrArg (fun xs => List.head? xs) har
        simpa using this.symm
      apply dotFree_not_mem hdf
      rw [ha, hc]
      simp

theorem underKey_disjoint {p k₁ k₂ q : String} (h₁ : dotFree k₁ = true)
    (h₂ : dotFree k₂ = true) (hne : k₁ ≠ k₂)
    (u₁ : UnderKey p k₁ q) (u₂ : UnderKey p k₂ q) : False := by
  obtain ⟨r₁, hr₁, he₁⟩ := underKey_data u₁
  obtain ⟨r₂, hr₂, he₂⟩ := underKey_data u₂
  have hmain : k₁.data ++ r₁ = k₂.data ++ r₂ :=
    List.append_cancel_left (he₁.symm.trans he₂)
  rcases List.append_eq_append_iff.mp hmain with ⟨a, ha, har⟩ | ⟨c, hc, hcr⟩
  · exact key_prefix_absurd h₂ hr₁ hne ⟨a, ha, har⟩
  · exact key_prefix_absurd h₁ hr₂ (Ne.symm hne) ⟨c, hc, hcr⟩

theorem wfData_parts {fields : List (String × JsonValue)} (h : wfData (vObj fields) = true) :
    (dataKeys fields).Nodup ∧ (∀ k ∈ dataKeys fields, dotFree k = true) ∧
      wfFields fields = true := by
  rw [wfData] at h
  simp only [Bool.and_eq_true, decide_eq_true_eq, List.all_eq_true] at h
  exact ⟨h.1.1, h.1.2, h.2⟩

theorem wfData_tail {k : String} {v : JsonValue} {rest : List (String × JsonValue)}
    (h : wfData (vObj ((k, v) :: rest)) = true) : wfData (vObj rest) = true := by
  obtain ⟨hn, hd, hf⟩ := wfData_parts h
  rw [wfData]
  simp only [Bool.and_eq_true, decide_eq_true_eq, List.all_eq_true]
  refine ⟨⟨?_, ?_⟩, ?_⟩
  · simpa [dataKeys] using (by simpa [dataKeys] using hn : ((k :: dataKeys rest).Nodup)).of_cons
  · intro x hx
    exact hd x (by simp [dataKeys] at hx ⊢; right; exact hx)
  · rw [wfFields] at hf
    exact (Bool.and_eq_true
      (wfData v) (wfFields rest) |>.mp hf).2

theorem wfFields_head {k : String} {v : JsonValue} {rest : List (String × JsonValue)}
    (h : wfData (vObj ((k, v) :: rest)) = true) : wfData v = true := by
  obtain ⟨_, _, hf⟩ := wfData_parts h
  rw [wfFields] at hf
  exact (Bool.and_eq_true (wfData v) (wfFields rest) |>.mp hf).1

theorem wfData_head_key {k : String} {v : JsonValue} {rest : List (String × JsonValue)}
    (h : wfData (vObj ((k, v) :: rest)) = true) :
    dotFree k = true ∧ k ∉ dataKeys rest := by
  obtain ⟨hn, hd, _⟩ := wfData_parts h
  constructor
  · exact hd k (by simp [dataKeys])
  · have : (k :: dataKeys rest).Nodup := by simpa [dataKeys] using hn
    exact (List.nodup_cons.mp this).1

theorem coveredBy_nil (p : String) (K : List String) : CoveredBy p K [] := by
  intro q hq
  simp at hq

theorem coveredBy_append {p : String} {K : List String} {a b : List String}
    (ha : CoveredBy p K a) (hb : CoveredBy p K b) : CoveredBy p K (a ++ b) := by
  intro q hq
  rcases List.mem_append.mp hq with h | h
  · exact ha q h
  · exact hb q h

theorem coveredBy_mono {p : String} {K K' : List String} {qs : List String}
    (hk : ∀ k, k ∈ K → k ∈ K') (h : CoveredBy p K qs) : CoveredBy p K' qs := by
  intro q hq
  obtain ⟨k, hkK, hdf, hu⟩ := h q hq
  exact ⟨k, hk k hkK, hdf, hu⟩

theorem coveredBy_extend {p k : String} {K' : List String} {qs : List String}
    (hp : p ≠ "") (hdf : dotFree k = true)
    (h : CoveredBy (joinPath p k) K' qs) : CoveredBy p [k] qs := by
  intro q hq
  obtain ⟨k', _, _, hu⟩ := h q hq
  exact ⟨k, by simp, hdf, underKey_extend hp hu⟩

theorem coveredBy_base_notmem {p k : String} {K' : List String} {qs : List String}
    (hp : p ≠ "") (h : CoveredBy (joinPath p k) K' qs) : joinPath p k ∉ qs := by
  intro hmem
  obtain ⟨k', _, _, hu⟩ := h _ hmem
  exact underKey_ne (joinPath_ne_empty k hp) hu rfl

theorem coveredBy_disj {p : String} {K₁ K₂ : List String} {a b : List String}
    (hd : ∀ k, k ∈ K₁ → k ∈ K₂ → False)
    (ha : CoveredBy p K₁ a) (hb : CoveredBy p K₂ b) : ListDisj a b := by
  intro x hxa hxb
  obtain ⟨k₁, hk₁, hdf₁, hu₁⟩ := ha x hxa
  obtain ⟨k₂, hk₂, hdf₂, hu₂⟩ := hb x hxb
  rcases eq_or_ne k₁ k₂ with h | h
  · exact hd k₁ hk₁ (h ▸ hk₂)
  · exact underKey_disjoint hdf₁ hdf₂ h hu₁ hu₂

theorem listDisj_nil_left (b : List String) : ListDisj [] b := by
  intro x hx
  simp at hx

theorem listDisj_nil_right (a : List String) : ListDisj a [] := by
  intro x _ hx
  simp at hx

theorem listDisj_append_left {a b c : List String} (h₁ : ListDisj a c) (h₂ : ListDisj b c) :
    ListDisj (a ++ b) c := by
  intro x hx hxc
  rcases List.mem_append.mp hx with h | h
  · exact h₁ x h hxc
  · exact h₂ x h hxc

theorem listDisj_append_right {a b c : List String} (h₁ : ListDisj a b) (h₂ : ListDisj a c) :
    ListDisj a (b ++ c) := by
  intro x hxa hx
  rcases List.mem_append.mp hx with h | h
  · exact h₁ x hxa h
  · exact h₂ x hxa h

theorem listDisj_symm {a b : List String} (h : ListDisj a b) : ListDisj b a := by
  intro x hxb hxa
  exact h x hxa hxb

theorem nodup_append_of_disj {a b : List String} (ha : a.Nodup) (hb : b.Nodup)
    (hab : ListDisj a b) : (a ++ b).Nodup := by
  refine List.Nodup.append ha hb ?_
  intro x hxa hxb
  exact hab x hxa hxb

theorem markAll_inv : ∀ (fields : List (String × JsonValue)) (p : String), p ≠ "" →
    wfData (vObj fields) = true →
    (markAllAsUnexpected fields p).Nodup ∧
      CoveredBy p (dataKeys fields) (markAllAsUnexpected fields p) := by
  intro fields p
  induction fields, p using markAllAsUnexpected.induct with
  | case1 p =>
    intro _hp _hw
    rw [markAllAsUnexpected]
    exact ⟨List.nodup_nil, coveredBy_nil p (dataKeys [])⟩
  | case2 p key v rest ih1 ih2 =>
    intro hp hw
    obtain ⟨hdfk, hknotin⟩ := wfData_head_key hw
    have hwv := wfFields_head hw
    have hwrest := wfData_tail hw
    obtain ⟨htn, htc⟩ := ih2 hp hwrest
    have hjoin : p ++ "." ++ key = joinPath p key := by simp [joinPath, hp]
    rw [markAllAsUnexpected]
    have hinner : ∀ inner, inner = (if isObjNonArray v then
          markAllAsUnexpected (objFields v) (p ++ "." ++ key) else []) →
        inner.Nodup ∧ CoveredBy p [key] inner ∧ (p ++ "." ++ key) ∉ inner := by
      intro inner hdef
      by_cases hobj : isObjNonArray v = true
      · rw [hdef, if_pos hobj, hjoin]
        have hnb : p ++ "." ++ key ≠ "" := by rw [hjoin]; exact joinPath_ne_empty key hp
        have hwo : wfData (vObj (objFields v)) = true := by
          cases v <;> simp [isObjNonArray] at hobj
          simpa [objFields] using hwv
        obtain ⟨hn, hc⟩ := ih1 hobj hnb hwo
        rw [hjoin] at hn hc
        refine ⟨hn, coveredBy_extend hp hdfk hc, ?_⟩
        exact coveredBy_base_notmem hp hc
      · rw [hdef, if_neg hobj]
        exact ⟨List.nodup_nil, coveredBy_nil p [key], by simp⟩
    obtain ⟨hin, hic, hinotmem⟩ := hinner _ rfl
    constructor
    · apply nodup_append_of_disj
      · exact List.nodup_cons.mpr ⟨hinotmem, hin⟩
      · exact htn
      · intro x hx hxt
        obtain ⟨k₂, hk₂, hdf₂, hu₂⟩ := htc x hxt
        have hkne : key ≠ k₂ := fun h => hknotin (h ▸ hk₂)
        rcases List.mem_cons.mp hx with hx0 | hxi
        · subst hx0
          exact underKey_disjoint hdfk hdf₂ hkne (hjoin ▸ underKey_self p key) hu₂
        · obtain ⟨k₁, hk₁, hdf₁, hu₁⟩ := hic x hxi
          simp at hk₁
          rw [hk₁] at hdf₁ hu₁
          exact underKey_disjoint hdf₁ hdf₂ hkne hu₁ hu₂
    · have hdk : dataKeys ((key, v) :: rest) = key :: dataKeys rest := rfl
      rw [hdk]
      apply coveredBy_append
      · intro q hq
        rcases List.mem_cons.mp hq with h0 | hi
        · exact ⟨key, by simp, hdfk, by rw [h0, hjoin]; exact underKey_self p key⟩
        · obtain ⟨k₁, hk₁, hdf₁, hu₁⟩ := hic q hi
          simp at hk₁
          rw [hk₁] at hdf₁ hu₁
          exact ⟨key, by simp, hdf₁, hu₁⟩
      · exact coveredBy_mono (fun k hk => List.mem_cons_of_mem key hk) htc

theorem contains_iff_mem {l : List String} {a : String} : l.contains a = true ↔ a ∈ l := by
  simp

theorem unexpectedWalk_inv : ∀ (fields : List (String × JsonValue)) (schema : SchemaMap)
    (p : String), p ≠ "" → wfData (vObj fields) = true →
    (unexpectedWalk fields schema p).Nodup ∧
      ∀ q ∈ unexpectedWalk fields schema p, ∃ k, k ∈ dataKeys fields ∧
        k ∉ schemaKeys schema ∧ dotFree k = true ∧ UnderKey p k q := by
  intro fields schema p
  induction fields, schema, p using unexpectedWalk.induct with
  | case1 schema p =>
    intro _hp _hw
    rw [unexpectedWalk]
    refine ⟨List.nodup_nil, ?_⟩
    intro q hq
    simp at hq
  | case2 schema p key v rest ih =>
    intro hp hw
    obtain ⟨hdfk, hknotin⟩ := wfData_head_key hw
    have hwv := wfFields_head hw
    have hwrest := wfData_tail hw
    obtain ⟨htn, htc⟩ := ih hp hwrest
    rw [unexpectedWalk]
    by_cases hmem : key ∈ schemaKeys schema
    · rw [if_neg (by simp [hmem])]
      refine ⟨by simpa using htn, ?_⟩
      intro q hq
      simp only [List.nil_append] at hq
      obtain ⟨k, hk, hks, hdf, hu⟩ := htc q hq
      exact ⟨k, List.mem_cons_of_mem key hk, hks, hdf, hu⟩
    · rw [if_pos (by simp [hmem])]
      have hinner : ∀ inner, inner = (if isObjNonArray v then
            markAllAsUnexpected (objFields v) (joinPath p key) else []) →
          inner.Nodup ∧ CoveredBy p [key] inner ∧ (joinPath p key) ∉ inner := by
        intro inner hdef
        by_cases hobj : isObjNonArray v = true
        · rw [hdef, if_pos hobj]
          have hwo : wfData (vObj (objFields v)) = true := by
            cases v <;> simp [isObjNonArray] at hobj
            simpa [objFields] using hwv
          obtain ⟨hn, hc⟩ := markAll_inv (objFields v) (joinPath p key)
            (joinPath_ne_empty key hp) hwo
          refine ⟨hn, coveredBy_extend hp hdfk hc, ?_⟩
          exact coveredBy_base_notmem hp hc
        · rw [hdef, if_neg hobj]
          exact ⟨List.nodup_nil, coveredBy_nil p [key], by simp⟩
      obtain ⟨hin, hic, hinotmem⟩ := hinner _ rfl
      constructor
      · apply nodup_append_of_disj
        · exact List.nodup_cons.mpr ⟨hinotmem, hin⟩
        · exact htn
        · intro x hx hxt
          obtain ⟨k₂, hk₂, _hks₂, hdf₂, hu₂⟩ := htc x hxt
          have hkne : key ≠ k₂ := fun h => hknotin (h ▸ hk₂)
          rcases List.mem_cons.mp hx with hx0 | hxi
          · subst hx0
            exact underKey_disjoint hdfk hdf₂ hkne (underKey_self p key) hu₂
          · obtain ⟨k₁, hk₁, hdf₁, hu₁⟩ := hic x hxi
            simp at hk₁
            rw [hk₁] at hdf₁ hu₁
            exact underKey_disjoint hdf₁ hdf₂ hkne hu₁ hu₂
      · intro q hq
        rcases List.mem_append.mp hq with hq1 | hq2
        · rcases List.mem_cons.mp hq1 with h0 | hi
          · exact ⟨key, by simp [dataKeys], hmem, hdfk,
              h0 ▸ underKey_self p key⟩
          · obtain ⟨k₁, hk₁, hdf₁, hu₁⟩ := hic q hi
            simp at hk₁
            rw [hk₁] at hdf₁ hu₁
            exact ⟨key, by simp [dataKeys], hmem, hdf₁, hu₁⟩
        · obtain ⟨k, hk, hks, hdf, hu⟩ := htc q hq2
          exact ⟨k, List.mem_cons_of_mem key hk, hks, hdf, hu⟩

theorem coveredBy_append_left {p : String} {K : List String} {a b : List String}
    (h : CoveredBy p K (a ++ b)) : CoveredBy p K a := by
  intro q hq
  exact h q (List.mem_append.mpr (Or.inl hq))

theorem coveredBy_append_right {p : String} {K : List String} {a b : List String}
    (h : CoveredBy p K (a ++ b)) : CoveredBy p K b := by
  intro q hq
  exact h q (List.mem_append.mpr (Or.inr hq))

theorem vrinv_parts {p : String} {K : List String} {n : ValidationResult} (h : VRinv p K n) :
    CoveredBy p K n.missing ∧ CoveredBy p K n.valid ∧ CoveredBy p K n.unexpected := by
  obtain ⟨_, _, _, _, _, _, hc⟩ := h
  exact ⟨coveredBy_append_left (coveredBy_append_left hc),
    coveredBy_append_right (coveredBy_append_left hc),
    coveredBy_append_right hc⟩

theorem vrinv_empty (p : String) (K : List String) : VRinv p K emptyResult := by
  refine ⟨List.nodup_nil, List.nodup_nil, List.nodup_nil, ?_, ?_, ?_, ?_⟩ <;>
    first
      | (intro x hx _; simp [emptyResult] at hx)
      | (intro q hq; simp [emptyResult] at hq)

theorem vrinv_single_missing {p k : String} (hdf : dotFree k = true) :
    VRinv p [k] (⟨[joinPath p k], [], []⟩ : ValidationResult) := by
  refine ⟨List.nodup_singleton _, List.nodup_nil, List.nodup_nil, ?_, ?_, ?_, ?_⟩
  · intro x _ hx; simp at hx
  · intro x _ hx; simp at hx
  · intro x hx; simp at hx
  · intro q hq
    simp at hq
    exact ⟨k, by simp, hdf, hq ▸ underKey_self p k⟩

theorem vrinv_valid_head {p k : String} {K' : List String} {child : ValidationResult}
    (hp : p ≠ "") (hdf : dotFree k = true)
    (hchild : VRinv (joinPath p k) K' child) :
    VRinv p [k]
      (ValidationResult.app ⟨[], [], [joinPath p k]⟩ child) := by
  obtain ⟨hcm, hcv, hcu⟩ := vrinv_parts hchild
  obtain ⟨hmn, hvn, hun, hmv, hmu, hvu, _⟩ := hchild
  have hnm := coveredBy_base_notmem hp hcm
  have hnv := coveredBy_base_notmem hp hcv
  have hnu := coveredBy_base_notmem hp hcu
  have extm := coveredBy_extend hp hdf hcm
  have extv := coveredBy_extend hp hdf hcv
  have extu := coveredBy_extend hp hdf hcu
  refine ⟨by simpa using hmn, ?_, by simpa using hun, ?_, ?_, ?_, ?_⟩
  · simp only [ValidationResult.app_valid, List.nil_append]
    exact List.nodup_cons.mpr ⟨hnv, hvn⟩
  · intro x hx hxv
    simp only [ValidationResult.app_missing, List.nil_append] at hx
    simp only [ValidationResult.app_valid, List.nil_append] at hxv
    rcases List.mem_cons.mp hxv with h0 | h0
    · exact hnm (h0 ▸ hx)
    · exact hmv x hx h0
  · intro x hx hxu
    simp only [ValidationResult.app_missing, List.nil_append] at hx
    simp only [ValidationResult.app_unexpected, List.nil_append] at hxu
    exact hmu x hx hxu
  · intro x hxv hxu
    simp only [ValidationResult.app_valid, List.nil_append] at hxv
    simp only [ValidationResult.app_unexpected, List.nil_append] at hxu
    rcases List.mem_cons.mp hxv with h0 | h0
    · exact hnu (h0 ▸ hxu)
    · exact hvu x h0 hxu
  · intro q hq
    simp only [ValidationResult.app_missing, ValidationResult.app_valid,
      ValidationResult.app_unexpected, List.nil_append] at hq
    rcases List.mem_append.mp hq with hq2 | hqu
    · rcases List.mem_append.mp hq2 with hqm | hqv
      · exact extm q hqm
      · rcases List.mem_cons.mp hqv with h0 | h0
        · exact ⟨k, by simp, hdf, h0 ▸ underKey_self p k⟩
        · exact extv q h0
    · exact extu q hqu

theorem vrinv_compose {p k : String} {K : List String} {a b : ValidationResult}
    (hknotin : k ∉ K) (ha : VRinv p [k] a) (hb : VRinv p K b) :
    VRinv p (k :: K) (a.app b) := by
  obtain ⟨acm, acv, acu⟩ := vrinv_parts ha
  obtain ⟨bcm, bcv, bcu⟩ := vrinv_parts hb
  obtain ⟨amn, avn, aun, amv, amu, avu, _⟩ := ha
  obtain ⟨bmn, bvn, bun, bmv, bmu, bvu, _⟩ := hb
  have hd : ∀ k', k' ∈ [k] → k' ∈ K → False := by
    intro k' h1 h2
    simp at h1
    exact hknotin (h1 ▸ h2)
  have dmm := coveredBy_disj hd acm bcm
  have dmv := coveredBy_disj hd acm bcv
  have dmu := coveredBy_disj hd acm bcu
  have dvm := coveredBy_disj hd acv bcm
  have dvv := coveredBy_disj hd acv bcv
  have dvu := coveredBy_disj hd acv bcu
  have dum := coveredBy_disj hd acu bcm
  have duv := coveredBy_disj hd acu bcv
  have duu := coveredBy_disj hd acu bcu
  have hmono : ∀ c, CoveredBy p [k] c → CoveredBy p (k :: K) c := by
    intro c hc
    exact coveredBy_mono (fun x hx => by simp at hx; simp [hx]) hc
  have hmonoK : ∀ c, CoveredBy p K c → CoveredBy p (k :: K) c := by
    intro c hc
    exact coveredBy_mono (fun x hx => List.mem_cons_of_mem k hx) hc
  refine ⟨?_, ?_, ?_, ?_, ?_, ?_, ?_⟩
  · exact nodup_append_of_disj amn bmn dmm
  · exact nodup_append_of_disj avn bvn dvv
  · exact nodup_append_of_disj aun bun duu
  · simp only [ValidationResult.app_missing, ValidationResult.app_valid]
    apply listDisj_append_left
    · exact listDisj_append_right amv dmv
    · exact listDisj_append_right (listDisj_symm dvm) bmv
  · simp only [ValidationResult.app_missing, ValidationResult.app_unexpected]
    apply listDisj_append_left
    · exact listDisj_append_right amu dmu
    · exact listDisj_append_right (listDisj_symm dum) bmu
  · simp only [ValidationResult.app_valid, ValidationResult.app_unexpected]
    apply listDisj_append_left
    · exact listDisj_append_right avu dvu
    · exact listDisj_append_right (listDisj_symm duv) bvu
  · simp only [ValidationResult.app_missing, ValidationResult.app_valid,
      ValidationResult.app_unexpected]
    intro q hq
    rcases List.mem_append.mp hq with h1 | h1
    · rcases List.mem_append.mp h1 with h2 | h2
      · rcases List.mem_append.mp h2 with h3 | h3
        · exact hmono _ acm q h3
        · exact hmonoK _ bcm q h3
      · rcases List.mem_append.mp h2 with h3 | h3
        · exact hmono _ acv q h3
        · exact hmonoK _ bcv q h3
    · rcases List.mem_append.mp h1 with h3 | h3
      · exact hmono _ acu q h3
      · exact hmonoK _ bcu q h3

theorem lookupField_mem {fields : List (String × JsonValue)} {k : String} {v : JsonValue}
    (h : lookupField fields k = some v) : (k, v) ∈ fields := by
  induction fields with
  | nil => simp [lookupField] at h
  | cons hd rest ih =>
    obtain ⟨key, w⟩ := hd
    rw [lookupField] at h
    by_cases hk : key = k
    · rw [if_pos hk] at h
      simp at h
      simp [hk, h]
    · rw [if_neg hk] at h
      exact List.mem_cons_of_mem _ (ih h)

theorem wfFields_mem {fields : List (String × JsonValue)} {k : String} {v : JsonValue}
    (hw : wfFields fields = true) (h : (k, v) ∈ fields) : wfData v = true := by
  induction fields with
  | nil => simp at h
  | cons hd rest ih =>
    rw [wfFields] at hw
    rcases List.mem_cons.mp h with h0 | h0
    · obtain ⟨key, w⟩ := hd
      cases h0
      exact (Bool.and_eq_true _ _ |>.mp hw).1
    · exact ih (by
        obtain ⟨key, w⟩ := hd
        exact (Bool.and_eq_true _ _ |>.mp hw).2) h0

theorem wfData_lookup {fields : List (String × JsonValue)} {k : String} {v : JsonValue}
    (hw : wfData (vObj fields) = true) (h : lookupField fields k = some v) :
    wfData v = true :=
  wfFields_mem (wfData_parts hw).2.2 (lookupField_mem h)

theorem wfSchema_parts {m : SchemaMap} (h : wfSchemaMap m = true) :
    (schemaKeys m).Nodup ∧ (∀ k ∈ schemaKeys m, dotFree k = true) ∧
      wfSchemaEntries m = true := by
  rw [wfSchemaMap] at h
  simp only [Bool.and_eq_true, decide_eq_true_eq, List.all_eq_true] at h
  exact ⟨h.1.1, h.1.2, h.2⟩

theorem wfSchema_head_key {key : String} {e : SchemaNode} {rest : SchemaMap}
    (h : wfSchemaMap ((key, e) :: rest) = true) :
    dotFree key = true ∧ key ∉ schemaKeys rest := by
  obtain ⟨hn, hd, _⟩ := wfSchema_parts h
  constructor
  · exact hd key (by simp [schemaKeys])
  · have : (key :: schemaKeys rest).Nodup := by simpa [schemaKeys] using hn
    exact (List.nodup_cons.mp this).1

theorem wfSchema_tail {key : String} {e : SchemaNode} {rest : SchemaMap}
    (h : wfSchemaMap ((key, e) :: rest) = true) : wfSchemaMap rest = true := by
  obtain ⟨hn, hd, he⟩ := wfSchema_parts h
  rw [wfSchemaMap]
  simp only [Bool.and_eq_true, decide_eq_true_eq, List.all_eq_true]
  refine ⟨⟨?_, ?_⟩, ?_⟩
  · have : (key :: schemaKeys rest).Nodup := by simpa [schemaKeys] using hn
    exact this.of_cons
  · intro x hx
    exact hd x (by simp [schemaKeys] at hx ⊢; right; exact hx)
  · obtain ⟨ty, opt, en, ug, ch⟩ := e
    rw [wfSchemaEntries.eq_def] at he
    simp only [Bool.and_eq_true] at he
    exact he.2

theorem wfSchema_head_children {key : String} {ty : TypeSpec} {opt : Bool}
    {en : Option (List String)} {ug : List UnionGroup} {cs rest : SchemaMap}
    (h : wfSchemaMap ((key, SchemaNode.mk ty opt en ug (some cs)) :: rest) = true) :
    wfSchemaMap cs = true := by
  obtain ⟨_, _, he⟩ := wfSchema_parts h
  rw [wfSchemaEntries.eq_def] at he
  simp only [Bool.and_eq_true] at he
  exact he.1

theorem vrinv_add_walk {p : String} {SK DK : List String} {W : List String}
    {r₁ : ValidationResult} (h₁ : VRinv p SK r₁) (hWn : W.Nodup)
    (hWc : ∀ q ∈ W, ∃ k, k ∈ DK ∧ k ∉ SK ∧ dotFree k = true ∧ UnderKey p k q) :
    VRinv p (SK ++ DK) (r₁.app ⟨[], W, []⟩) := by
  obtain ⟨cm, cv, cu⟩ := vrinv_parts h₁
  obtain ⟨mn, vn, un, mv, mu, vu, _⟩ := h₁
  have dW : ∀ c, CoveredBy p SK c → ListDisj c W := by
    intro c hc x hxc hxW
    obtain ⟨k₁, hk₁, hdf₁, hu₁⟩ := hc x hxc
    obtain ⟨k₂, _, hk₂n, hdf₂, hu₂⟩ := hWc x hxW
    rcases eq_or_ne k₁ k₂ with he | he
    · exact hk₂n (he ▸ hk₁)
    · exact underKey_disjoint hdf₁ hdf₂ he hu₁ hu₂
  have monoSK : ∀ c, CoveredBy p SK c → CoveredBy p (SK ++ DK) c := fun c hc =>
    coveredBy_mono (fun k hk => List.mem_append.mpr (Or.inl hk)) hc
  refine ⟨?_, ?_, ?_, ?_, ?_, ?_, ?_⟩
  · simpa using mn
  · simpa using vn
  · simp only [ValidationResult.app_unexpected]
    exact nodup_append_of_disj un hWn (dW _ cu)
  · simp only [ValidationResult.app_missing, ValidationResult.app_valid, List.append_nil]
    exact mv
  · simp only [ValidationResult.app_missing, ValidationResult.app_unexpected, List.append_nil]
    exact listDisj_append_right mu (dW _ cm)
  · simp only [ValidationResult.app_valid, ValidationResult.app_unexpected, List.append_nil]
    exact listDisj_append_right vu (dW _ cv)
  · simp only [ValidationResult.app_missing, ValidationResult.app_valid,
      ValidationResult.app_unexpected, List.append_nil]
    intro q hq
    rcases List.mem_append.mp hq with h1 | h1
    · rcases List.mem_append.mp h1 with h2 | h2
      · exact monoSK _ cm q h2
      · exact monoSK _ cv q h2
    · rcases List.mem_append.mp h1 with h2 | h2
      · exact monoSK _ cu q h2
      · obtain ⟨k, hkD, _, hdf, hu⟩ := hWc q h2
        exact ⟨k, List.mem_append.mpr (Or.inr hkD), hdf, hu⟩

theorem goInv_of_phase1 {schema : SchemaMap} (hph : Phase1Inv schema) : GoInv schema := by
  intro obj p hp hw
  cases obj with
  | vObj fields =>
    rw [validateGo]
    have h₁ := hph fields p hp hw
    obtain ⟨wn, wc⟩ := unexpectedWalk_inv fields schema p hp hw
    exact vrinv_add_walk h₁ wn wc
  | vUndef =>
    rw [validateGo]
    · exact vrinv_empty p _
    · exact fun fields h => JsonValue.noConfusion h
  | vNull =>
    rw [validateGo]
    · exact vrinv_empty p _
    · exact fun fields h => JsonValue.noConfusion h
  | vBool b =>
    rw [validateGo]
    · exact vrinv_empty p _
    · exact fun fields h => JsonValue.noConfusion h
  | vNum n =>
    rw [validateGo]
    · exact vrinv_empty p _
    · exact fun fields h => JsonValue.noConfusion h
  | vStr s =>
    rw [validateGo]
    · exact vrinv_empty p _
    · exact fun fields h => JsonValue.noConfusion h
  | vArr xs =>
    rw [validateGo]
    · exact vrinv_empty p _
    · exact fun fields h => JsonValue.noConfusion h

theorem schemaMap_sizeOf_pos (m : SchemaMap) : 0 < sizeOf m := by
  cases m <;> simp <;> try omega

theorem phase1_inv_strong : ∀ (N : Nat) (schema : SchemaMap), sizeOf schema ≤ N →
    wfSchemaMap schema = true → Phase1Inv schema := by
  intro N
  induction N with
  | zero =>
    intro schema hsz _
    exact absurd (Nat.lt_of_lt_of_le (schemaMap_sizeOf_pos schema) hsz) (by omega)
  | succ N ihN =>
    intro schema hsz hwf fields p hp hw
    cases schema with
    | nil =>
      rw [phase1]
      exact vrinv_empty p _
    | cons hd rest =>
      obtain ⟨key, e⟩ := hd
      obtain ⟨ty, opt, en, ug, ch⟩ := e
      obtain ⟨hdfk, hknotin⟩ := wfSchema_head_key hwf
      have htail : VRinv p (schemaKeys rest) (phase1 fields rest p) :=
        ihN rest (by simp at hsz; omega) (wfSchema_tail hwf) fields p hp hw
      rw [phase1]
      rcases hlk : lookupField fields key with _ | v
      · simp only [hlk]
        exact vrinv_compose hknotin (vrinv_single_missing hdfk) htail
      · by_cases hmv : isMissingValue v = true
        · simp only [hlk, if_pos hmv]
          exact vrinv_compose hknotin (vrinv_single_missing hdfk) htail
        · simp only [hlk, if_neg hmv]
          cases ch with
          | none =>
            exact vrinv_compose hknotin
              (vrinv_valid_head hp hdfk (vrinv_empty (joinPath p key) [])) htail
          | some cs =>
            by_cases hcond : (jsTypeof v == "object" && !(isArray v)) = true
            · simp only [if_pos hcond]
              have hcsN : sizeOf cs ≤ N := by simp at hsz; omega
              have hgo := goInv_of_phase1
                (ihN cs hcsN (wfSchema_head_children hwf)) v (joinPath p key)
                (joinPath_ne_empty key hp) (wfData_lookup hw hlk)
              exact vrinv_compose hknotin (vrinv_valid_head hp hdfk hgo) htail
            · simp only [if_neg hcond]
              exact vrinv_compose hknotin
                (vrinv_valid_head hp hdfk (vrinv_empty (joinPath p key) [])) htail

theorem phase1Inv_of_wf {schema : SchemaMap} (hwf : wfSchemaMap schema = true) :
    Phase1Inv schema :=
  phase1_inv_strong (sizeOf schema) schema le_rfl hwf

theorem goInv_of_wf {schema : SchemaMap} (hwf : wfSchemaMap schema = true) :
    GoInv schema :=
  goInv_of_phase1 (phase1Inv_of_wf hwf)

theorem wfChildren : wfSchemaMap hostContextChildren = true := by
  simp [wfSchemaMap, wfSchemaEntries, hostContextChildren, styleVariablesSchema,
    styleVariableKeys, schemaKeys, dotFree]


theorem validateGo_root_child {k : String} {ty : TypeSpec} {opt : Bool}
    {en : Option (List String)} {ug : List UnionGroup} {cs : SchemaMap} {hc : JsonValue}
    (hnm : isMissingValue hc = false)
    (hcond : (jsTypeof hc == "object" && !(isArray hc)) = true) :
    validateGo (vObj [(k, hc)]) [(k, SchemaNode.mk ty opt en ug (some cs))] "" =
      ⟨(validateGo hc cs k).missing, (validateGo hc cs k).unexpected,
        k :: (validateGo hc cs k).valid⟩ := by
  rw [validateGo, phase1, phase1, unexpectedWalk, unexpectedWalk]
  simp [lookupField, hnm, hcond, schemaKeys, joinPath, ValidationResult.app, emptyResult]

theorem validateGo_root_simple {k : String} {ty : TypeSpec} {opt : Bool}
    {en : Option (List String)} {ug : List UnionGroup} {ch : Option SchemaMap}
    {hc : JsonValue} (hnm : isMissingValue hc = false)
    (hno : ch = none ∨ (jsTypeof hc == "object" && !(isArray hc)) = false) :
    validateGo (vObj [(k, hc)]) [(k, SchemaNode.mk ty opt en ug ch)] "" =
      ⟨[], [], [k]⟩ := by
  rw [validateGo, phase1, phase1, unexpectedWalk, unexpectedWalk]
  rcases hno with h | h
  · subst h
    simp [lookupField, hnm, schemaKeys, joinPath, ValidationResult.app, emptyResult]
  · cases ch with
    | none => simp [lookupField, hnm, schemaKeys, joinPath, ValidationResult.app, emptyResult]
    | some cs => simp [lookupField, hnm, h, schemaKeys, joinPath, ValidationResult.app, emptyResult]

theorem rootAssemble {K' : List String} {child : ValidationResult}
    (hv : VRinv "hostContext" K' child) :
    child.missing.Nodup ∧ ("hostContext" :: child.valid).Nodup ∧ child.unexpected.Nodup ∧
      ListDisj child.missing ("hostContext" :: child.valid) ∧
      ListDisj child.missing child.unexpected ∧
      ListDisj ("hostContext" :: child.valid) child.unexpected := by
  obtain ⟨cm, cv, cu⟩ := vrinv_parts hv
  obtain ⟨mn, vn, un, mv, mu, vu, _⟩ := hv
  have hne : ∀ c, CoveredBy "hostContext" K' c → "hostContext" ∉ c := by
    intro c hc hmem
    obtain ⟨k, _, _, hu⟩ := hc _ hmem
    exact underKey_ne (by simp) hu rfl
  refine ⟨mn, List.nodup_cons.mpr ⟨hne _ cv, vn⟩, un, ?_, mu, ?_⟩
  · intro x hx hxv
    rcases List.mem_cons.mp hxv with h0 | h0
    · exact hne _ cm (h0 ▸ hx)
    · exact mv x hx h0
  · intro x hxv hxu
    rcases List.mem_cons.mp hxv with h0 | h0
    · exact hne _ cu (h0 ▸ hxu)
    · exact vu x h0 hxu

/-- Claim C4 (amended).  For every input data object that is well-formed in
the JavaScript sense (unique keys at every object level) and whose keys
contain no dot character, the three lists of the ValidationResult returned by
`validateHostContext` contain no duplicate path and no path occurs in more
than one of the three lists.  (Without the dot-free restriction a data key
containing a dot collides with subtree marking; see the counterexample.) -/
theorem C4_result_partition (d : JsonValue) (hw : wfData d = true) :
    (validateHostContext d).missing.Nodup ∧ (validateHostContext d).valid.Nodup ∧
      (validateHostContext d).unexpected.Nodup ∧
      ListDisj (validateHostContext d).missing (validateHostContext d).valid ∧
      ListDisj (validateHostContext d).missing (validateHostContext d).unexpected ∧
      ListDisj (validateHostContext d).valid (validateHostContext d).unexpected := by
  rw [validateHostContext]
  by_cases hg : (jsTruthy d && jsTruthy (getProp d "hostContext")) = true
  case neg =>
    rw [if_neg hg]
    exact ⟨List.nodup_nil, List.nodup_nil, List.nodup_nil,
      listDisj_nil_left _, listDisj_nil_left _, listDisj_nil_left _⟩
  case pos =>
    rw [if_pos hg]
    cases d with
    | vUndef => simp [jsTruthy] at hg
    | vNull => simp [jsTruthy] at hg
    | vBool b => simp [getProp, jsTruthy] at hg
    | vNum n => simp [getProp, jsTruthy] at hg
    | vStr s => simp [getProp, jsTruthy] at hg
    | vArr xs => simp [getProp, jsTruthy] at hg
    | vObj fields =>
      rcases hlk : lookupField fields "hostContext" with _ | hc
      · simp [getProp, hlk, jsTruthy] at hg
      · have hgp : getProp (vObj fields) "hostContext" = hc := by simp [getProp, hlk]
        rw [hgp]
        have hwhc : wfData hc = true := wfData_lookup hw hlk
        have htr : jsTruthy hc = true := by
          rw [hgp] at hg
          exact (Bool.and_eq_true _ _ |>.mp hg).2
        have hnm : isMissingValue hc = false := by
          cases hc <;> simp_all [jsTruthy, isMissingValue]
        rw [show hostContextSchema =
          [("hostContext", SchemaNode.mk (.single "object") false none []
            (some hostContextChildren))] from rfl]
        by_cases hobj : isObjNonArray hc = true
        · have hcond : (jsTypeof hc == "object" && !(isArray hc)) = true := by
            cases hc <;> simp_all [isObjNonArray, jsTypeof, isArray]
          rw [validateGo_root_child hnm hcond]
          exact rootAssemble (goInv_of_wf wfChildren hc "hostContext" (by simp) hwhc)
        · have hcond : (jsTypeof hc == "object" && !(isArray hc)) = false := by
            cases hc <;> simp_all [isObjNonArray, jsTypeof, isArray, isMissingValue]
          rw [validateGo_root_simple hnm (Or.inr hcond)]
          exact ⟨List.nodup_nil, List.nodup_singleton _, List.nodup_nil,
            listDisj_nil_left _, listDisj_nil_left _, listDisj_nil_right _⟩

theorem phase1_empty : ∀ (schema : SchemaMap) (p : String),
    phase1 [] schema p = ⟨(schemaKeys schema).map (joinPath p), [], []⟩ := by
  intro schema
  induction schema with
  | nil =>
    intro p
    rw [phase1]
    simp [schemaKeys, emptyResult]
  | cons hd rest ih =>
    intro p
    obtain ⟨key, e⟩ := hd
    obtain ⟨ty, opt, en, ug, ch⟩ := e
    rw [phase1]
    simp [lookupField, ih, schemaKeys, ValidationResult.app]

theorem validateGo_empty_obj (schema : SchemaMap) (p : String) :
    validateGo (vObj []) schema p =
      ⟨(schemaKeys schema).map (joinPath p), [], []⟩ := by
  rw [validateGo, unexpectedWalk, phase1_empty]
  simp [ValidationResult.app]

theorem specGen_eq : ∀ (schema : SchemaMap) (pre : String) (anc : List Bool),
    specGenerateTestCases schema pre anc = generateTestCases schema pre (anc.any id) := by
  intro schema pre anc
  induction schema, pre, anc using specGenerateTestCases.induct with
  | case1 pre anc =>
    rw [specGenerateTestCases, generateTestCases]
  | case2 pre anc key ty opt en ug ch rest ih1 ih2 =>
    rw [specGenerateTestCases.eq_def, generateTestCases.eq_def]
    have hor : (anc ++ [opt]).any id = (anc.any id || opt) := by simp
    cases ch with
    | some cs =>
      dsimp only
      rw [ih1, hor, ih2]
    | none =>
      dsimp only
      rw [hor, ih2]

theorem generate_length : ∀ (schema : SchemaMap) (pre : String) (po : Bool),
    (generateTestCases schema pre po).length = leafCount schema := by
  intro schema pre po
  induction schema, pre, po using generateTestCases.induct with
  | case1 pre po =>
    rw [generateTestCases, leafCount]
    rfl
  | case2 pre po key ty opt en ug ch rest ih1 ih2 =>
    rw [generateTestCases.eq_def, leafCount.eq_def]
    cases ch with
    | some cs =>
      dsimp only
      simp only [List.length_append]
      rw [ih1, ih2]
    | none =>
      dsimp only
      simp only [List.length_append]
      rw [ih2]
      simp [Nat.add_comm]

theorem findAux_empty_schema : ∀ (N : Nat) (fields : List (String × JsonValue))
    (base : String), sizeOf fields ≤ N →
    findUnexpectedAux fields [] base = specDeepUnexpected fields base := by
  intro N
  induction N with
  | zero =>
    intro fields base hsz
    cases fields with
    | nil => rw [findUnexpectedAux, specDeepUnexpected]
    | cons hd rest => simp at hsz
  | succ N ihN =>
    intro fields base hsz
    cases fields with
    | nil => rw [findUnexpectedAux, specDeepUnexpected]
    | cons hd rest =>
      obtain ⟨key, v⟩ := hd
      rw [findUnexpectedAux, specDeepUnexpected]
      simp only [schemaKeys, List.map_nil, List.contains_nil, Bool.not_false, if_pos]
      have hrest : findUnexpectedAux rest [] base = specDeepUnexpected rest base :=
        ihN rest base (by simp at hsz; omega)
      rw [hrest]
      by_cases hobj : isObjNonArray v = true
      · rw [if_pos hobj, if_pos hobj]
        cases v <;> simp [isObjNonArray] at hobj
        rw [findUnexpectedProperties]
        rw [ihN _ _ (by simp at hsz ⊢; omega)]
        simp [objFields]
      · rw [if_neg hobj, if_neg hobj]

theorem findProps_non_obj : ∀ (v : JsonValue) (schema : SchemaMap) (pre : String),
    isObjNonArray v = false → findUnexpectedProperties v schema pre = [] := by
  intro v schema pre h
  cases v with
  | vObj fields => simp [isObjNonArray] at h
  | vUndef =>
    rw [findUnexpectedProperties]
    · exact fun fields hf => JsonValue.noConfusion hf
  | vNull =>
    rw [findUnexpectedProperties]
    · exact fun fields hf => JsonValue.noConfusion hf
  | vBool b =>
    rw [findUnexpectedProperties]
    · exact fun fields hf => JsonValue.noConfusion hf
  | vNum n =>
    rw [findUnexpectedProperties]
    · exact fun fields hf => JsonValue.noConfusion hf
  | vStr s =>
    rw [findUnexpectedProperties]
    · exact fun fields hf => JsonValue.noConfusion hf
  | vArr xs =>
    rw [findUnexpectedProperties]
    · exact fun fields hf => JsonValue.noConfusion hf

theorem findProps_empty_schema (v : JsonValue) (base : String) (hobj : isObjNonArray v = true) :
    findUnexpectedProperties v [] base = specDeepUnexpected (objFields v) base := by
  cases v <;> simp [isObjNonArray] at hobj
  rw [findUnexpectedProperties, findAux_empty_schema (sizeOf _) _ _ le_rfl]
  simp [objFields]

theorem findAux_mem {schema : SchemaMap} {pre k : String} {v : JsonValue} :
    ∀ (fields : List (String × JsonValue)), (k, v) ∈ fields → k ∉ schemaKeys schema →
    ((⟨joinPath pre k, v, actualTypeOf v⟩ : UnexpectedProperty) ∈
        findUnexpectedAux fields schema pre ∧
      ∀ e ∈ specDeepUnexpected (objFields v) (joinPath pre k),
        e ∈ findUnexpectedAux fields schema pre) := by
  intro fields
  induction fields with
  | nil =>
    intro h
    simp at h
  | cons hd rest ih =>
    intro hmem hns
    obtain ⟨key, w⟩ := hd
    rw [findUnexpectedAux]
    rcases List.mem_cons.mp hmem with h0 | h0
    · injection h0 with h1 h2
      subst h1
      subst h2
      rw [if_pos (by simpa using hns)]
      constructor
      · exact List.mem_append.mpr (Or.inl (List.mem_cons_self _ _))
      · intro e he
        by_cases hobj : isObjNonArray v = true
        · rw [if_pos hobj, findProps_empty_schema v _ hobj]
          exact List.mem_append.mpr (Or.inl (List.mem_cons_of_mem _ he))
        · have hempty : objFields v = [] := by
            cases v <;> simp [objFields, isObjNonArray] at hobj ⊢
          rw [hempty, specDeepUnexpected] at he
          simp at he
    · obtain ⟨hm, hdeep⟩ := ih h0 hns
      constructor
      · exact List.mem_append.mpr (Or.inr hm)
      · intro e he
        exact List.mem_append.mpr (Or.inr (hdeep e he))

-- ===========================================================================
-- Claim theorems
-- ===========================================================================

/-- Claim C1 (amended).  For the data object with an empty `hostContext`, the
validator marks exactly the direct schema children of the present level as
missing: in general, validating an empty object against any schema level
pushes every direct key of that level (optional or not) as missing and
nothing else; deeper leaves are not enumerated.  Concretely,
`validateHostContext {hostContext: {}}` returns the twelve direct children of
`hostContext` as missing, `hostContext` itself as valid (not an empty valid
list, as originally claimed), and nothing unexpected. -/
theorem C1_empty_data_validation :
    (∀ (schema : SchemaMap) (p : String),
      validateGo (vObj []) schema p =
        ⟨(schemaKeys schema).map (joinPath p), [], []⟩) ∧
    validateHostContext (vObj [("hostContext", vObj [])]) =
      ⟨["hostContext.toolInfo", "hostContext.theme", "hostContext.styles",
        "hostContext.displayMode", "hostContext.availableDisplayModes",
        "hostContext.containerDimensions", "hostContext.locale",
        "hostContext.timeZone", "hostContext.userAgent", "hostContext.platform",
        "hostContext.deviceCapabilities", "hostContext.safeAreaInsets"], [],
        ["hostContext"]⟩ := by
  refine ⟨validateGo_empty_obj, ?_⟩
  have h1 : validateHostContext (vObj [("hostContext", vObj [])]) =
      validateGo (vObj [("hostContext", vObj [])]) hostContextSchema "" := by
    rw [validateHostContext, if_pos (by simp [jsTruthy, getProp, lookupField])]
    simp [getProp, lookupField]
  rw [h1, show hostContextSchema =
    [("hostContext", SchemaNode.mk (.single "object") false none []
      (some hostContextChildren))] from rfl,
    @validateGo_root_child "hostContext" (.single "object") false none []
      hostContextChildren (vObj []) rfl rfl, validateGo_empty_obj]
  simp [hostContextChildren, schemaKeys, joinPath]

/-- Claim C1 counterexample.  The claim states that for the data object
`{hostContext: {}}` no path is placed in the `valid` list; in fact the
validator places `hostContext` itself there. -/
theorem C1_counterexample :
    (validateHostContext (vObj [("hostContext", vObj [])])).valid = ["hostContext"] ∧
      (validateHostContext (vObj [("hostContext", vObj [])])).valid ≠ [] := by
  have h1 : validateHostContext (vObj [("hostContext", vObj [])]) =
      validateGo (vObj [("hostContext", vObj [])]) hostContextSchema "" := by
    rw [validateHostContext, if_pos (by simp [jsTruthy, getProp, lookupField])]
    simp [getProp, lookupField]
  rw [h1, show hostContextSchema =
    [("hostContext", SchemaNode.mk (.single "object") false none []
      (some hostContextChildren))] from rfl,
    @validateGo_root_child "hostContext" (.single "object") false none []
      hostContextChildren (vObj []) rfl rfl, validateGo_empty_obj]
  exact ⟨rfl, by simp⟩

/-- Claim C2.  Every descriptor emitted by `generateTestCases` has its
`optional` field equal to the boolean OR of all ancestor optional flags with
the leaf's own declared flag, and interior nodes never produce a descriptor:
the generator coincides with the specification-level generator that threads
the explicit list of ancestor flags and ORs it at each leaf, and the number
of descriptors equals the number of schema leaves. -/
theorem C2_generator_inheritance :
    (∀ (schema : SchemaMap) (pre : String) (parentOptional : Bool),
      generateTestCases schema pre parentOptional =
        specGenerateTestCases schema pre [parentOptional]) ∧
    ∀ (schema : SchemaMap) (pre : String) (parentOptional : Bool),
      (generateTestCases schema pre parentOptional).length = leafCount schema := by
  constructor
  · intro schema pre po
    rw [specGen_eq]
    simp
  · exact generate_length

/-- Claim C3 counterexample.  The claim states that `getGrade` returns an
object with a `severity` key; the source returns the severity bucket under
the key `color` (there is no `severity` key). -/
theorem C3_counterexample :
    (getGrade 85).lookup "severity" = none ∧
      (getGrade 85).lookup "letter" = some "B" ∧
      (getGrade 85).lookup "color" = some "pass" := by
  refine ⟨?_, ?_, ?_⟩ <;> decide

/-- Claim C3 (amended).  `getGrade` follows the exhaustive threshold table
(≥90 A, ≥80 B, ≥70 C, ≥60 D, else F) with severity buckets pass/pass/warn/
warn/fail, but stores the bucket under the source key `color`, not
`severity`. -/
theorem C3_grade_table (p : ℚ) :
    (90 ≤ p → getGrade p = [("letter", "A"), ("color", "pass")]) ∧
    (80 ≤ p → p < 90 → getGrade p = [("letter", "B"), ("color", "pass")]) ∧
    (70 ≤ p → p < 80 → getGrade p = [("letter", "C"), ("color", "warn")]) ∧
    (60 ≤ p → p < 70 → getGrade p = [("letter", "D"), ("color", "warn")]) ∧
    (p < 60 → getGrade p = [("letter", "F"), ("color", "fail")]) := by
  unfold getGrade
  refine ⟨fun h => ?_, fun h1 h2 => ?_, fun h1 h2 => ?_, fun h1 h2 => ?_, fun h => ?_⟩
  · rw [if_pos (by exact h)]
  · rw [if_neg (by simpa using not_le.mpr h2), if_pos (by exact h1)]
  · rw [if_neg (by simpa using not_le.mpr (lt_trans h2 (by norm_num))),
      if_neg (by simpa using not_le.mpr h2), if_pos (by exact h1)]
  · rw [if_neg (by simpa using not_le.mpr (lt_trans h2 (by norm_num))),
      if_neg (by simpa using not_le.mpr (lt_trans h2 (by norm_num))),
      if_neg (by simpa using not_le.mpr h2), if_pos (by exact h1)]
  · rw [if_neg (by simpa using not_le.mpr (lt_trans h (by norm_num))),
      if_neg (by simpa using not_le.mpr (lt_trans h (by norm_num))),
      if_neg (by simpa using not_le.mpr (lt_trans h (by norm_num))),
      if_neg (by simpa using not_le.mpr h)]

/-- Claim C3 witness: the three concrete gradings of the claim, with the
bucket under the `color` key. -/
theorem C3_grade_table_witness :
    getGrade 85 = [("letter", "B"), ("color", "pass")] ∧
      getGrade 65 = [("letter", "D"), ("color", "warn")] ∧
      getGrade 40 = [("letter", "F"), ("color", "fail")] :=
  ⟨(C3_grade_table 85).2.1 (by norm_num) (by norm_num),
   (C3_grade_table 65).2.2.2.1 (by norm_num) (by norm_num),
   (C3_grade_table 40).2.2.2.2 (by norm_num)⟩

/-- Claim C4 counterexample.  The claim states the three result lists never
contain a duplicate; a data key containing a dot character collides with the
subtree marking of a sibling, so `hostContext.foo.bar` is pushed twice into
`unexpected` for the data `{hostContext: {foo: {bar: 1}, "foo.bar": 2}}`. -/
theorem C4_counterexample :
    (validateHostContext (vObj [("hostContext",
        vObj [("foo", vObj [("bar", vNum 1)]), ("foo.bar", vNum 2)])])).unexpected =
      ["hostContext.foo", "hostContext.foo.bar", "hostContext.foo.bar"] ∧
    ¬ (validateHostContext (vObj [("hostContext",
        vObj [("foo", vObj [("bar", vNum 1)]), ("foo.bar", vNum 2)])])).unexpected.Nodup := by
  have h : (validateHostContext (vObj [("hostContext",
      vObj [("foo", vObj [("bar", vNum 1)]), ("foo.bar", vNum 2)])])).unexpected =
      ["hostContext.foo", "hostContext.foo.bar", "hostContext.foo.bar"] := by
    simp [validateHostContext, jsTruthy, getProp, lookupField, hostContextSchema,
      hostContextChildren, validateGo, phase1, unexpectedWalk, schemaKeys, joinPath,
      isMissingValue, jsTypeof, isArray, isObjNonArray, objFields,
      ValidationResult.app, emptyResult, markAllAsUnexpected]
  refine ⟨h, ?_⟩
  rw [h]
  decide

/-- Claim C4 witness: the partition property evaluated at the concrete
well-formed input `{hostContext: {}}`. -/
theorem C4_result_partition_witness :
    wfData (vObj [("hostContext", vObj [])]) = true ∧
      ((validateHostContext (vObj [("hostContext", vObj [])])).missing.Nodup ∧
        (validateHostContext (vObj [("hostContext", vObj [])])).valid.Nodup ∧
        (validateHostContext (vObj [("hostContext", vObj [])])).unexpected.Nodup ∧
        ListDisj (validateHostContext (vObj [("hostContext", vObj [])])).missing
          (validateHostContext (vObj [("hostContext", vObj [])])).valid ∧
        ListDisj (validateHostContext (vObj [("hostContext", vObj [])])).missing
          (validateHostContext (vObj [("hostContext", vObj [])])).unexpected ∧
        ListDisj (validateHostContext (vObj [("hostContext", vObj [])])).valid
          (validateHostContext (vObj [("hostContext", vObj [])])).unexpected) :=
  ⟨by simp [wfData, wfFields, dataKeys, dotFree],
   C4_result_partition _ (by simp [wfData, wfFields, dataKeys, dotFree])⟩

/-- Claim C5 (amended).  Whenever the dot-path lookup completes and reports
the path unresolved (an absent key of an object or array intermediate, or a
`null`/`undefined` intermediate), `runTestCase` returns status `missing`
with message `Not provided`, actualValue `undefined` and actualType
`"undefined"`, regardless of the expected type.  (When an intermediate value
is a non-null primitive, the lookup instead throws a TypeError — see the
counterexample — so the original claim as stated fails there.) -/
theorem C5_missing_lookup (tc : TestCaseDescriptor) (d : JsonValue) (r : LookupResult)
    (hl : getValueByPath d tc.path = Except.ok r) (hnf : r.found = false) :
    runTestCase tc d = .ok ⟨"missing", "Not provided", vUndef, "undefined"⟩ := by
  obtain ⟨f, value⟩ := r
  simp at hnf
  subst hnf
  unfold runTestCase
  simp only [hl]
  simp

/-- Claim C5 counterexample.  A descriptor path that does not resolve because
an intermediate value is a non-null primitive makes `runTestCase` throw a
TypeError (the JavaScript `in` operator on a primitive) instead of returning
the `missing` status the claim requires. -/
theorem C5_counterexample :
    runTestCase ⟨"hostContext.toolInfo.id", .union ["string", "number"], none, true,
        some "hostContext.toolInfo"⟩
      (vObj [("hostContext", vObj [("toolInfo", vNum 5)])]) =
      .error "TypeError" := rfl

/-- Claim C5 witness: a concrete unresolved path produces the missing
result. -/
theorem C5_missing_lookup_witness :
    getValueByPath (vObj []) "hostContext.theme" = Except.ok ⟨false, vUndef⟩ ∧
      runTestCase ⟨"hostContext.theme", .single "string", some ["light", "dark"], true,
          some "hostContext"⟩ (vObj []) =
        .ok ⟨"missing", "Not provided", vUndef, "undefined"⟩ :=
  ⟨rfl, C5_missing_lookup _ _ ⟨false, vUndef⟩ rfl rfl⟩

/-- Claim C6.  When the lookup succeeds, the runtime type matches the
expected type(s), `enumValues` is present and the value is not a member of
the enum set, `runTestCase` returns status `warn` (never `invalid`),
preserving the actual value and type, with the message quoting the value and
listing the enum entries. -/
theorem C6_enum_warn (tc : TestCaseDescriptor) (d : JsonValue) (r : LookupResult)
    (es : List String) (hl : getValueByPath d tc.path = Except.ok r) (hf : r.found = true)
    (hen : tc.enumValues = some es)
    (hty : (expectedTypesOf tc.expectedType).contains (actualTypeOf r.value) = true)
    (hmem : enumHas es r.value = false) :
    runTestCase tc d = .ok ⟨"warn",
      "Value \"" ++ jsToString r.value ++ "\" not in spec: [" ++
        String.intercalate ", " es ++ "]", r.value, actualTypeOf r.value⟩ := by
  obtain ⟨f, value⟩ := r
  simp at hf
  subst hf
  unfold runTestCase
  simp only [hl, hen]
  simp at hty hmem
  simp [hty, hmem]

/-- Claim C6 witness: the concrete `theme`/`solarized` scenario of the claim,
with the exact message (containing the value and the enum entries). -/
theorem C6_enum_warn_witness :
    runTestCase ⟨"theme", .single "string", some ["light", "dark"], true, none⟩
        (vObj [("theme", vStr "solarized")]) =
      .ok ⟨"warn", "Value \"solarized\" not in spec: [light, dark]",
        vStr "solarized", "string"⟩ := by
  have h := C6_enum_warn ⟨"theme", .single "string", some ["light", "dark"], true, none⟩
    (vObj [("theme", vStr "solarized")]) ⟨true, vStr "solarized"⟩ ["light", "dark"]
    rfl rfl rfl (by decide) (by decide)
  simpa [jsToString, String.intercalate, String.intercalate.go, actualTypeOf,
    jsTypeof, isArray] using h

/-- Claim C7.  `getPathValidationStatus` returns `missing` on an exact match
against the missing list; otherwise `unexpected` on an exact match against
the unexpected list or when the path extends an unexpected entry followed by
a dot (subtree marker, even if the descendant was never enumerated);
otherwise `valid`. -/
theorem C7_classifier (path : String) (r : ValidationResult) :
    (path ∈ r.missing → getPathValidationStatus path r = "missing") ∧
    (path ∉ r.missing →
      (path ∈ r.unexpected ∨
        ∃ u ∈ r.unexpected, ((u ++ ".").data.isPrefixOf path.data) = true) →
      getPathValidationStatus path r = "unexpected") ∧
    (path ∉ r.missing → path ∉ r.unexpected →
      (¬ ∃ u ∈ r.unexpected, ((u ++ ".").data.isPrefixOf path.data) = true) →
      getPathValidationStatus path r = "valid") := by
  unfold getPathValidationStatus
  refine ⟨fun h => ?_, fun hnm hu => ?_, fun h1 h2 h3 => ?_⟩
  · rw [if_pos (contains_iff_mem.mpr h)]
  · rw [if_neg (fun hc => hnm (contains_iff_mem.mp hc))]
    rcases hu with h | ⟨u, hu, hpre⟩
    · rw [if_pos (contains_iff_mem.mpr h)]
    · by_cases h2 : r.unexpected.contains path = true
      · rw [if_pos h2]
      · rw [if_neg h2, if_pos (List.any_eq_true.mpr ⟨u, hu, hpre⟩)]
  · rw [if_neg (fun hc => h1 (contains_iff_mem.mp hc)),
      if_neg (fun hc => h2 (contains_iff_mem.mp hc)),
      if_neg (fun hc => h3 (List.any_eq_true.mp hc))]

/-- Claim C7 witness: the three branches at concrete inputs, including a
dot-prefixed descendant of an unexpected entry that was never itself
enumerated. -/
theorem C7_classifier_witness :
    getPathValidationStatus "a" ⟨["a"], ["b"], []⟩ = "missing" ∧
      getPathValidationStatus "b.c" ⟨["a"], ["b"], []⟩ = "unexpected" ∧
      getPathValidationStatus "z" ⟨["a"], ["b"], []⟩ = "valid" :=
  ⟨(C7_classifier "a" ⟨["a"], ["b"], []⟩).1 (by simp),
   (C7_classifier "b.c" ⟨["a"], ["b"], []⟩).2.1 (by simp)
     (Or.inr ⟨"b", by simp, by decide⟩),
   (C7_classifier "z" ⟨["a"], ["b"], []⟩).2.2 (by simp) (by simp) (by decide)⟩

/-- Claim C8.  `findUnexpectedProperties` returns no findings for non-object
or array input at any level; and for every key absent from the schema it
records that key's full path with its value and runtime type, and (when the
value is a non-array object) also records every nested key path beneath it
(the full subtree enumeration `specDeepUnexpected`). -/
theorem C8_finder :
    (∀ (v : JsonValue) (schema : SchemaMap) (pre : String), isObjNonArray v = false →
      findUnexpectedProperties v schema pre = []) ∧
    ∀ (fields : List (String × JsonValue)) (schema : SchemaMap) (pre k : String)
      (v : JsonValue), (k, v) ∈ fields → k ∉ schemaKeys schema →
      ((⟨joinPath pre k, v, actualTypeOf v⟩ : UnexpectedProperty) ∈
          findUnexpectedProperties (vObj fields) schema pre ∧
        ∀ e ∈ specDeepUnexpected (objFields v) (joinPath pre k),
          e ∈ findUnexpectedProperties (vObj fields) schema pre) := by
  refine ⟨findProps_non_obj, ?_⟩
  intro fields schema pre k v hmem hns
  rw [findUnexpectedProperties]
  exact findAux_mem fields hmem hns

/-- Claim C8 witness: the concrete scenario of the claim — data with an extra
key `foo: {bar: 1}` yields both `foo` and `foo.bar` as unexpected entries,
each with value and runtime type. -/
theorem C8_finder_witness :
    (⟨"foo", vObj [("bar", vNum 1)], "object"⟩ : UnexpectedProperty) ∈
        findUnexpectedProperties (vObj [("foo", vObj [("bar", vNum 1)])])
          [("theme", SchemaNode.mk (.single "string") true (some ["light", "dark"]) [] none)]
          "" ∧
      (⟨"foo.bar", vNum 1, "number"⟩ : UnexpectedProperty) ∈
        findUnexpectedProperties (vObj [("foo", vObj [("bar", vNum 1)])])
          [("theme", SchemaNode.mk (.single "string") true (some ["light", "dark"]) [] none)]
          "" := by
  have h := C8_finder.2 [("foo", vObj [("bar", vNum 1)])]
    [("theme", SchemaNode.mk (.single "string") true (some ["light", "dark"]) [] none)]
    "" "foo" (vObj [("bar", vNum 1)]) (by simp) (by simp [schemaKeys])
  refine ⟨?_, ?_⟩
  · have h1 := h.1
    simpa [joinPath, actualTypeOf, jsTypeof, isArray] using h1
  · apply h.2 ⟨"foo.bar", vNum 1, "number"⟩
    rw [specDeepUnexpected.eq_def]
    simp [objFields, joinPath, specDeepUnexpected, actualTypeOf, jsTypeof, isArray,
      isObjNonArray]

/-- Claim C9.  For every input value that is `undefined`, `null`, a
non-object, or an object lacking a `hostContext` key, `validateHostContext`
returns the all-empty result; in the model all functions are total, so no
exception can be raised. -/
theorem C9_no_context_empty (d : JsonValue)
    (h : ∀ fields, d = vObj fields → lookupField fields "hostContext" = none) :
    validateHostContext d = ⟨[], [], []⟩ := by
  rw [validateHostContext]
  cases d with
  | vObj fields =>
    rw [if_neg (by simp [getProp, h fields rfl, jsTruthy])]
    rfl
  | vUndef => rw [if_neg (by simp [jsTruthy])]; rfl
  | vNull => rw [if_neg (by simp [jsTruthy])]; rfl
  | vBool b => rw [if_neg (by simp [getProp, jsTruthy])]; rfl
  | vNum n => rw [if_neg (by simp [getProp, jsTruthy])]; rfl
  | vStr s => rw [if_neg (by simp [getProp, jsTruthy])]; rfl
  | vArr xs => rw [if_neg (by simp [getProp, jsTruthy])]; rfl

/-- Claim C9 witness: the empty result at `null`, at a number, and at an
object without a `hostContext` key. -/
theorem C9_no_context_empty_witness :
    validateHostContext vNull = ⟨[], [], []⟩ ∧
      validateHostContext (vNum 5) = ⟨[], [], []⟩ ∧
      validateHostContext (vObj [("other", vNum 1)]) = ⟨[], [], []⟩ :=
  ⟨C9_no_context_empty _ (fun fields hf => nomatch hf),
   C9_no_context_empty _ (fun fields hf => nomatch hf),
   C9_no_context_empty _ (fun fields hf => by injection hf with h; subst h; rfl)⟩

/-- Claim C10.  An explicit `null` leaf counts as found by the dot-path
lookup: when the lookup returns `{found: true, value: null}` and `"null"` is
not among the expected types, `runTestCase` returns status `invalid` with
actualType `"null"` (not status `missing`); by contrast the Validator
records a schema key whose value is `null` as missing. -/
theorem C10_null_leaf_invalid :
    (∀ (tc : TestCaseDescriptor) (d : JsonValue),
      getValueByPath d tc.path = Except.ok ⟨true, vNull⟩ →
      "null" ∉ expectedTypesOf tc.expectedType →
      runTestCase tc d = .ok ⟨"invalid",
        "Expected " ++ String.intercalate " | " (expectedTypesOf tc.expectedType) ++
          ", got " ++ "null", vNull, "null"⟩) ∧
    ∀ (fields : List (String × JsonValue)) (k : String) (e : SchemaNode)
      (rest : SchemaMap) (p : String), lookupField fields k = some vNull →
      joinPath p k ∈ (validateGo (vObj fields) ((k, e) :: rest) p).missing := by
  constructor
  · intro tc d hl hnn
    have hcont : (expectedTypesOf tc.expectedType).contains "null" = false := by
      rw [← Bool.not_eq_true]
      exact fun hc => hnn (contains_iff_mem.mp hc)
    unfold runTestCase
    simp only [hl]
    simp [actualTypeOf, hcont]
    exact fun hx => absurd hx hnn
  · intro fields k e rest p hlk
    obtain ⟨ty, opt, en, ug, ch⟩ := e
    rw [validateGo, phase1]
    simp only [hlk]
    simp [isMissingValue, ValidationResult.app]

/-- Claim C10 witness: a `null`-valued `theme` leaf is classified `invalid`
with actualType `"null"` by the runner, while the validator marks the same
key missing. -/
theorem C10_null_leaf_invalid_witness :
    runTestCase ⟨"theme", .single "string", some ["light", "dark"], true, none⟩
        (vObj [("theme", vNull)]) =
      .ok ⟨"invalid", "Expected string, got null", vNull, "null"⟩ ∧
      "theme" ∈ (validateGo (vObj [("theme", vNull)])
        [("theme", SchemaNode.mk (.single "string") true (some ["light", "dark"]) [] none)]
        "").missing := by
  constructor
  · have h := C10_null_leaf_invalid.1
      ⟨"theme", .single "string", some ["light", "dark"], true, none⟩
      (vObj [("theme", vNull)]) rfl (by decide)
    simpa [String.intercalate, String.intercalate.go, expectedTypesOf] using h
  · have h := C10_null_leaf_invalid.2 [("theme", vNull)] "theme"
      (SchemaNode.mk (.single "string") true (some ["light", "dark"]) [] none) [] "" rfl
    simpa [joinPath] using h
